import Mathlib

/-!
Verification of the CSP solver of this repository (the full-featured file:
constraint model, validator, backtracking search, forward checking, AC-3).

Modelling conventions:
* JavaScript objects used as finite maps (`Record<T, any>`) are modelled as
  association lists; lookup is the first matching key, and keys are unique in
  every object the JavaScript code can actually build.
* JavaScript values compared with `===` are modelled by the inductive `Val`
  (strings, booleans, numbers as they occur in the repository); `===` is
  decidable equality on `Val`.
* The general recursion of the search, of the forward-checking cascade and of
  the AC-3 worklist loop is modelled with an explicit fuel parameter; `none`
  means the fuel ran out or the JavaScript code threw (the two places where it
  can throw are marked below).  All theorems about the recursive functions are
  stated for every amount of fuel.
-/

namespace CSPSolver

/-- A runtime value as used by the repository's problems: `===`-comparable
strings, booleans and numbers. -/
inductive Val where
  | vstr (s : String)
  | vbool (b : Bool)
  | vnat (n : Nat)
deriving DecidableEq, Repr

/-- A (partial) variable assignment: a JavaScript object from variable names
to values, modelled as an association list in insertion order. -/
abbrev Assignment := List (String × Val)

/-- The two constraint variants of the solver. -/
inductive Constraint where
  | mustSatisfy (assignment : List (String × Val))
  | mustBeDistinct (vars : List String)
deriving DecidableEq, Repr

/-- The domain record `Record<T, any[]>`. -/
abbrev Domains := List (String × List Val)

/-- A constraint satisfaction problem, as in the source's `CSP<T>` type. -/
structure CSP where
  vars : List String
  domains : Domains
  constraints : List Constraint
  arcs : Option (List (String × String))
  neighbours : Option (List (String × List String))
deriving DecidableEq, Repr

/-- Solver options (`forwardChecking`, `arcConsistency`), defaulting to
plain backtracking. -/
structure SolverOptions where
  forwardChecking : Bool
  arcConsistency : Bool
deriving DecidableEq, Repr

/-- Plain backtracking: both options off. -/
def noOptions : SolverOptions := ⟨false, false⟩

/-- Only `forwardChecking` set. -/
def fcOptions : SolverOptions := ⟨true, false⟩

/-- Only `arcConsistency` set. -/
def acOptions : SolverOptions := ⟨false, true⟩

/-- Reading `csp.domains[x]`.  A missing entry is modelled as the empty
domain; the JavaScript code would throw on such a malformed problem, and
every problem appearing in a theorem below has a domain entry for every
variable it touches. -/
def domLookup (doms : Domains) (x : String) : List Val :=
  (doms.lookup x).getD []

/-- Writing `csp.domains[x] = d`: replace the binding of `x` (JavaScript
record update; a fresh key is appended in insertion order). -/
def setDom : Domains → String → List Val → Domains
  | [], x, d => [(x, d)]
  | (y, dy) :: rest, x, d =>
    if y = x then (x, d) :: rest else (y, dy) :: setDom rest x d

/-- The source's `copyAndReverse`: an arc list together with all reversed
arcs. -/
def copyAndReverse (arr : List (String × String)) : List (String × String) :=
  arr ++ arr.map (fun p => (p.2, p.1))

/-! ## Constraint validator (`validateConstraints`) -/

/-- The index pairs `(i, j)` scanned by the `MUST_BE_DISTINCT` loops, as the
corresponding element pairs: `i` ranges over `0 .. length - 2` and `j` over
`1 .. length - 1` (note: `j` restarts at `1`, not at `i + 1`, exactly as in
the source). -/
def distinctPairs (vars : List String) : List (String × String) :=
  vars.dropLast.flatMap (fun a => vars.tail.map (fun b => (a, b)))

/-- The `MUST_BE_DISTINCT` scan over the element pairs: `none` models the
early `return false` of `validateConstraints`, `some r` continues with the
updated `ranOnce` flag `r`. -/
def checkDistinctPairs (a : Assignment) : List (String × String) → Bool → Option Bool
  | [], ranOnce => some ranOnce
  | (u, w) :: rest, ranOnce =>
    match a.lookup u, a.lookup w with
    | some vu, some vw =>
      if vu = vw then none else checkDistinctPairs a rest true
    | _, _ => checkDistinctPairs a rest ranOnce

/-- The `MUST_SATISFY` case: skip unless every target variable is present;
otherwise fail exactly when at least one target variable matches its required
value and at least one differs. -/
def checkMustSatisfy (a : Assignment) (target : List (String × Val)) (ranOnce : Bool) :
    Option Bool :=
  if target.any (fun p => (a.lookup p.1).isNone) then some ranOnce
  else
    let atLeastTruthy := target.any (fun p => decide (a.lookup p.1 = some p.2))
    let atLeastFalsey := target.any (fun p => decide (a.lookup p.1 ≠ some p.2))
    if atLeastTruthy && atLeastFalsey then none else some true

/-- Dispatch on the constraint kind (the `switch` statement). -/
def checkConstraint (a : Assignment) (c : Constraint) (ranOnce : Bool) : Option Bool :=
  match c with
  | .mustBeDistinct vars => checkDistinctPairs a (distinctPairs vars) ranOnce
  | .mustSatisfy target => checkMustSatisfy a target ranOnce

/-- The constraint loop of `validateConstraints`, threading the `ranOnce`
flag; `none` models the early `return false`. -/
def validateGo (a : Assignment) : List Constraint → Bool → Option Bool
  | [], ranOnce => some ranOnce
  | c :: rest, ranOnce =>
    match checkConstraint a c ranOnce with
    | none => none
    | some r => validateGo a rest r

/-- The source's `validateConstraints(assignment, constraints, strict)`. -/
def validateConstraints (a : Assignment) (cs : List Constraint) (strict : Bool) : Bool :=
  match validateGo a cs false with
  | none => false
  | some ranOnce => if strict then ranOnce else true

end CSPSolver

namespace CSPSolver

/-! ## Forward checking (`forwardChecking`) -/

/-- The JavaScript value returned by `forwardChecking`: on the direct-wipeout
path the source executes a bare `return;`, so the result is either
`undefined` or an actual boolean. -/
inductive FCResult where
  | undef
  | bool (b : Bool)
deriving DecidableEq, Repr

/-- Truthiness of a `forwardChecking` result, as tested by its callers
(`if (forwardChecking(...))` and `.find(...)`). -/
def FCResult.truthy : FCResult → Bool
  | .undef => false
  | .bool b => b

/-- The inner loop of `forwardChecking` over the other variables of one
`MUST_BE_DISTINCT` constraint, threading the mutated domains and the
`assignmentsToPropagate` accumulator; `Except.error` models the bare
`return;` taken when removing `value` would empty a domain (the domains at
that point are kept, since the caller's copy stays mutated). -/
def fcPrune (value : Val) : List String → Domains → List (String × Val) →
    Except Domains (Domains × List (String × Val))
  | [], doms, acc => .ok (doms, acc)
  | w :: rest, doms, acc =>
    let domW := domLookup doms w
    if value ∈ domW then
      if domW.length = 1 then .error doms
      else
        let newDom := domW.filter (fun u => decide (u ≠ value))
        let doms1 := setDom doms w newDom
        if h : newDom.length = 1 then
          fcPrune value rest doms1
            (acc ++ [(w, newDom.head (by intro hnil; rw [hnil] at h; exact absurd h (by decide)))])
        else fcPrune value rest doms1 acc
    else fcPrune value rest doms acc

/-- The constraint loop of `forwardChecking`: only `MUST_BE_DISTINCT`
constraints containing the assigned variable prune anything;
`MUST_SATISFY` constraints are skipped. -/
def fcConstraints (variab : String) (value : Val) : List Constraint → Domains →
    List (String × Val) → Except Domains (Domains × List (String × Val))
  | [], doms, acc => .ok (doms, acc)
  | c :: rest, doms, acc =>
    match c with
    | .mustSatisfy _ => fcConstraints variab value rest doms acc
    | .mustBeDistinct vars =>
      if variab ∈ vars then
        match fcPrune value (vars.filter (fun v => decide (v ≠ variab))) doms acc with
        | .error d => .error d
        | .ok (doms1, acc1) => fcConstraints variab value rest doms1 acc1
      else fcConstraints variab value rest doms acc

/-- The final propagation step
`!!assignmentsToPropagate.find(([v, val]) => forwardChecking(cloneDeep(csp), v, val))`:
each recursive check runs on a fresh copy of the current domains (so its
mutations are discarded), and `find` stops at the first truthy result.
`f` is the recursive `forwardChecking` at the next fuel level; a `none` from
`f` (out of fuel) aborts the whole computation. -/
def fcPropagateList (f : String → Val → Option (FCResult × Domains)) :
    List (String × Val) → Option FCResult
  | [] => some (.bool false)
  | (w, val) :: rest =>
    match f w val with
    | none => none
    | some (res, _) => if res.truthy then some (.bool true) else fcPropagateList f rest

/-- The source's `forwardChecking(csp, variable, value)`, with fuel for the
singleton cascade.  Returns the JavaScript return value together with the
mutated domains of the argument `csp`. -/
def forwardCheckingFuel : Nat → Domains → List Constraint → String → Val →
    Option (FCResult × Domains)
  | 0, _, _, _, _ => none
  | fuel + 1, doms, cs, variab, value =>
    let doms1 := setDom doms variab [value]
    match fcConstraints variab value cs doms1 [] with
    | .error d => some (.undef, d)
    | .ok (doms2, acc) =>
      if acc.isEmpty then some (.bool false, doms2)
      else
        match fcPropagateList (fun w val => forwardCheckingFuel fuel doms2 cs w val) acc with
        | none => none
        | some res => some (res, doms2)

/-! ## Arc consistency (`arcConsistency`, AC-3) -/

/-- The pair object `{ [x]: valueX, [y]: valueY }` built by
`removeInconsistentValues`; when `x = y` the second property overwrites the
first, leaving a single binding. -/
def mkPairAssignment (x : String) (vx : Val) (y : String) (vy : Val) : Assignment :=
  if x = y then [(y, vy)] else [(x, vx), (y, vy)]

/-- One `Revise` run (`removeInconsistentValues`): iterate a snapshot of
`x`'s domain, and drop each value of `x` that has no strictly-validating
partner in `y`'s current domain.  The domains and the `removed` flag are
threaded. -/
def removeInconsistentValuesGo (cs : List Constraint) (x y : String) :
    List Val → Domains → Bool → Domains × Bool
  | [], doms, removed => (doms, removed)
  | vx :: restL, doms, removed =>
    if (domLookup doms y).any
        (fun vy => validateConstraints (mkPairAssignment x vx y vy) cs true) then
      removeInconsistentValuesGo cs x y restL doms removed
    else
      removeInconsistentValuesGo cs x y restL
        (setDom doms x ((domLookup doms x).filter (fun w => decide (¬ w = vx)))) true

/-- The source's `removeInconsistentValues(csp, x, y)` on the domain record. -/
def removeInconsistentValues (cs : List Constraint) (doms : Domains) (x y : String) :
    Domains × Bool :=
  removeInconsistentValuesGo cs x y (domLookup doms x) doms false

/-- One step of `computeNeighbours`' arc loop: record `b` as a neighbour of
`a` (append to the existing list, or add a fresh binding in insertion
order). -/
def addNeighbour : List (String × List String) → String → String → List (String × List String)
  | [], a, b => [(a, [b])]
  | (x, l) :: rest, a, b =>
    if x = a then (x, l ++ [b]) :: rest else (x, l) :: addNeighbour rest a b

/-- The neighbour record built by `computeNeighbours` from the arc list. -/
def buildNeighbours (arcs : List (String × String)) : List (String × List String) :=
  arcs.foldl (fun m p => addNeighbour m p.1 p.2) []

/-- The source's `computeNeighbours(csp)`: fill in the cached neighbour
record when an arc list is present and the cache is still empty. -/
def computeNeighbours (csp : CSP) : CSP :=
  match csp.arcs, csp.neighbours with
  | some arcs, none => { csp with neighbours := some (buildNeighbours arcs) }
  | _, _ => csp

/-- Reading `csp.neighbours![x]`; a variable with no outgoing arc has no
binding, modelled as the empty list (the JavaScript code would throw there,
which cannot happen for a symmetric arc list). -/
def neighboursOf (nbrs : List (String × List String)) (x : String) : List String :=
  (nbrs.lookup x).getD []

/-- The AC-3 worklist loop, with fuel for the re-enqueueing: pop the head
arc, revise it and, when something was removed, fail on an empty domain or
re-enqueue every arc pointing into the revised variable. -/
def ac3Loop (cs : List Constraint) (nbrs : List (String × List String)) :
    Nat → List (String × String) → Domains → Option (Bool × Domains)
  | 0, _, _ => none
  | _ + 1, [], doms => some (false, doms)
  | fuel + 1, (x, y) :: rest, doms =>
    let step := removeInconsistentValues cs doms x y
    if step.2 then
      if (domLookup step.1 x).isEmpty then some (true, step.1)
      else ac3Loop cs nbrs fuel (rest ++ (neighboursOf nbrs x).map (fun b => (b, x))) step.1
    else ac3Loop cs nbrs fuel rest step.1

/-- The source's `arcConsistency(csp)`: `none` models the thrown
`"Must provide arcs for AC-3!"` (or exhausted fuel); otherwise the wipeout
flag together with the mutated problem (pruned domains and the filled-in
neighbour cache). -/
def arcConsistencyFuel (fuel : Nat) (csp : CSP) : Option (Bool × CSP) :=
  match csp.arcs with
  | none => none
  | some arcs =>
    let csp1 := computeNeighbours csp
    match ac3Loop csp1.constraints (csp1.neighbours.getD []) fuel arcs csp1.domains with
    | none => none
    | some (b, doms) => some (b, { csp1 with domains := doms })

/-! ## Backtracking search (`recursiveBacktracking`) -/

/-- The value loop of `recursiveBacktracking` for the chosen variable `x`:
extend the assignment, validate it, optionally forward-check on a fresh copy
of the problem, and recurse.  `solveF` is the recursive search at the next
fuel level and `fcF` the forward checker at the next fuel level.  The outer
`Option` is fuel exhaustion; `some none` is the JavaScript `undefined`
result.  Note that a truthy forward-checking result makes the whole call
return `undefined` (the source's bare `return;`), not merely skip the
value. -/
def tryValues (solveF : CSP → Assignment → Option (Option Assignment))
    (fcF : Domains → List Constraint → String → Val → Option (FCResult × Domains))
    (csp : CSP) (a : Assignment) (opts : SolverOptions) (x : String) :
    List Val → Option (Option Assignment)
  | [] => some none
  | value :: rest =>
    let newA := a ++ [(x, value)]
    if validateConstraints newA csp.constraints false then
      if opts.forwardChecking then
        match fcF csp.domains csp.constraints x value with
        | none => none
        | some (res, doms2) =>
          if res.truthy then some none
          else
            match solveF { csp with domains := doms2 } newA with
            | none => none
            | some (some r) => some (some r)
            | some none => tryValues solveF fcF csp a opts x rest
      else
        match solveF csp newA with
        | none => none
        | some (some r) => some (some r)
        | some none => tryValues solveF fcF csp a opts x rest
    else tryValues solveF fcF csp a opts x rest

/-- The source's `recursiveBacktracking(csp, assignment, options)`, with fuel
bounding the recursion depth.  `none` is exhausted fuel or a JavaScript
exception (AC-3 without arcs, or no unassigned variable left while the
assignment size differs from the variable count); `some none` is the
`undefined` result; `some (some r)` is a returned assignment. -/
def recursiveBacktracking : Nat → CSP → Assignment → SolverOptions →
    Option (Option Assignment)
  | 0, _, _, _ => none
  | fuel + 1, csp, a, opts =>
    if a.length = csp.vars.length then some (some a)
    else
      match (if opts.arcConsistency then arcConsistencyFuel fuel csp
             else some (false, csp)) with
      | none => none
      | some (true, _) => some none
      | some (false, csp1) =>
        match csp1.vars.find? (fun v => (a.lookup v).isNone) with
        | none => none
        | some x =>
          tryValues (fun c b => recursiveBacktracking fuel c b opts)
            (forwardCheckingFuel fuel) csp1 a opts x (domLookup csp1.domains x)

/-! ## The Lion-Unicorn problem instance -/

/-- The Lion-Unicorn CSP exactly as defined in the source. -/
def LionUnicorn : CSP where
  vars := ["today", "lion", "unicorn"]
  domains :=
    [("today", [.vstr "Monday", .vstr "Tuesday", .vstr "Wednesday", .vstr "Thursday",
                .vstr "Friday", .vstr "Saturday", .vstr "Sunday"]),
     ("lion", [.vbool true, .vbool false]),
     ("unicorn", [.vbool true, .vbool false])]
  constraints :=
    [.mustSatisfy [("lion", .vbool true), ("today", .vstr "Thursday")],
     .mustSatisfy [("lion", .vbool false), ("today", .vstr "Monday")],
     .mustSatisfy [("unicorn", .vbool true), ("today", .vstr "Sunday")],
     .mustSatisfy [("unicorn", .vbool false), ("today", .vstr "Thursday")]]
  arcs := some (copyAndReverse [("lion", "today"), ("unicorn", "today")])
  neighbours := none

end CSPSolver

namespace CSPSolver

/-! ## Derived notions used to state the AC-3 properties -/

/-- A value `vx` of `x` has support in `y`'s domain: some `vy` makes the
two-variable assignment pass strict validation (this is exactly the `find`
inside `removeInconsistentValues`). -/
def hasSupport (cs : List Constraint) (doms : Domains) (x : String) (vx : Val) (y : String) :
    Bool :=
  (domLookup doms y).any (fun vy => validateConstraints (mkPairAssignment x vx y vy) cs true)

/-- The arc `(x, y)` is consistent: every value in `x`'s domain has support
in `y`'s domain. -/
def arcConsistent (cs : List Constraint) (doms : Domains) (x y : String) : Prop :=
  ∀ vx ∈ domLookup doms x, hasSupport cs doms x vx y = true

/-! ## State-threading view of the search, for the frame property

The source mutates problem state only inside `arcConsistency` and
`forwardChecking`, and `recursiveBacktracking` always calls them on a
`_.cloneDeep` copy.  The mirror below returns, next to the search result,
the value of the caller's `csp` object when the call returns: each mutating
call is applied to a separately bound copy, never to the threaded
instance. -/

/-- The value loop, state-threading view.  `newCsp` is the fresh deep copy
made for each candidate value; the forward checker mutates that copy and the
recursive call receives it.  The recursive call's own caller-view (its view
of `newCsp`) is dropped because the loop never reads `newCsp` again. -/
def tryValuesSt (solveF : CSP → Assignment → Option (Option Assignment × CSP))
    (fcF : Domains → List Constraint → String → Val → Option (FCResult × Domains))
    (csp : CSP) (a : Assignment) (opts : SolverOptions) (x : String) :
    List Val → Option (Option Assignment)
  | [] => some none
  | value :: rest =>
    let newA := a ++ [(x, value)]
    if validateConstraints newA csp.constraints false then
      if opts.forwardChecking then
        match fcF csp.domains csp.constraints x value with
        | none => none
        | some (res, doms2) =>
          if res.truthy then some none
          else
            match solveF { csp with domains := doms2 } newA with
            | none => none
            | some (some r, _) => some (some r)
            | some (none, _) => tryValuesSt solveF fcF csp a opts x rest
      else
        match solveF csp newA with
        | none => none
        | some (some r, _) => some (some r)
        | some (none, _) => tryValuesSt solveF fcF csp a opts x rest
    else tryValuesSt solveF fcF csp a opts x rest

/-- `recursiveBacktracking`, state-threading view: the second component of a
successful result is the caller's `csp` object after the call.  The AC-3
pass runs on the copy bound by `csp = _.cloneDeep(csp)` (here `csp1`), the
search continues on that copy, and the caller's instance is returned as it
was received at every exit. -/
def recursiveBacktrackingSt : Nat → CSP → Assignment → SolverOptions →
    Option (Option Assignment × CSP)
  | 0, _, _, _ => none
  | fuel + 1, csp, a, opts =>
    if a.length = csp.vars.length then some (some a, csp)
    else
      match (if opts.arcConsistency then arcConsistencyFuel fuel csp
             else some (false, csp)) with
      | none => none
      | some (true, _) => some (none, csp)
      | some (false, csp1) =>
        match csp1.vars.find? (fun v => (a.lookup v).isNone) with
        | none => none
        | some x =>
          match tryValuesSt (fun c b => recursiveBacktrackingSt fuel c b opts)
              (forwardCheckingFuel fuel) csp1 a opts x (domLookup csp1.domains x) with
          | none => none
          | some r => some (r, csp)

/-! ## Concrete instances used by counterexamples and witnesses -/

/-- A two-variable problem in which forward-checking value `1` for `v` hits
a wipeout (`w`'s domain is exactly `[1]`). -/
def wipeoutCSP : CSP :=
  ⟨["v"], [("v", [.vnat 1]), ("w", [.vnat 1])], [.mustBeDistinct ["v", "w"]], none, none⟩

/-- A problem whose arc list is not symmetric: `(a, x)` has no reverse
arc. -/
def asymCSP : CSP :=
  ⟨["a", "x", "y"],
   [("a", [.vnat 1, .vnat 2]), ("x", [.vnat 1, .vnat 2]), ("y", [.vnat 2])],
   [.mustBeDistinct ["x", "y"], .mustBeDistinct ["a", "x"]],
   some [("a", "x"), ("x", "y")], none⟩

/-- `asymCSP` after one AC-3 run: `x`'s domain lost the value `2`, but the
arc `(a, x)` was never revisited. -/
def asymCSPAfterOne : CSP :=
  ⟨["a", "x", "y"],
   [("a", [.vnat 1, .vnat 2]), ("x", [.vnat 1]), ("y", [.vnat 2])],
   [.mustBeDistinct ["x", "y"], .mustBeDistinct ["a", "x"]],
   some [("a", "x"), ("x", "y")],
   some [("a", ["x"]), ("x", ["y"])]⟩

/-- `asymCSP` after two AC-3 runs: the second run additionally pruned `1`
from `a`'s domain. -/
def asymCSPAfterTwo : CSP :=
  ⟨["a", "x", "y"],
   [("a", [.vnat 2]), ("x", [.vnat 1]), ("y", [.vnat 2])],
   [.mustBeDistinct ["x", "y"], .mustBeDistinct ["a", "x"]],
   some [("a", "x"), ("x", "y")],
   some [("a", ["x"]), ("x", ["y"])]⟩

/-- The Lion-Unicorn problem after its AC-3 fixpoint: every domain is the
singleton of the unique solution, and the neighbour cache is filled in. -/
def LionUnicornPruned : CSP :=
  ⟨["today", "lion", "unicorn"],
   [("today", [.vstr "Thursday"]), ("lion", [.vbool true]), ("unicorn", [.vbool false])],
   [.mustSatisfy [("lion", .vbool true), ("today", .vstr "Thursday")],
    .mustSatisfy [("lion", .vbool false), ("today", .vstr "Monday")],
    .mustSatisfy [("unicorn", .vbool true), ("today", .vstr "Sunday")],
    .mustSatisfy [("unicorn", .vbool false), ("today", .vstr "Thursday")]],
   some [("lion", "today"), ("unicorn", "today"), ("today", "lion"), ("today", "unicorn")],
   some [("lion", ["today"]), ("unicorn", ["today"]), ("today", ["lion", "unicorn"])]⟩

end CSPSolver

namespace CSPSolver

/-! ## General lemmas about the record operations -/

theorem lookup_setDom (doms : Domains) (x y : String) (d : List Val) :
    (setDom doms x d).lookup y = if y = x then some d else doms.lookup y := by
  induction doms with
  | nil =>
    by_cases h : y = x
    · simp [setDom, List.lookup, h]
    · simp [setDom, List.lookup, beq_false_of_ne h, h]
  | cons p rest ih =>
    obtain ⟨k, dk⟩ := p
    by_cases hk : k = x
    · subst hk
      by_cases h : y = k
      · simp [setDom, List.lookup, h]
      · simp [setDom, List.lookup, beq_false_of_ne h, h]
    · by_cases h : y = k
      · subst h
        simp [setDom, List.lookup, hk, Ne.symm hk]
      · simp [setDom, List.lookup, hk, beq_false_of_ne h, h, ih]

theorem domLookup_setDom (doms : Domains) (x y : String) (d : List Val) :
    domLookup (setDom doms x d) y = if y = x then d else domLookup doms y := by
  by_cases h : y = x <;> simp [domLookup, lookup_setDom, h]

theorem lookup_isSome_iff {β : Type} (l : List (String × β)) (x : String) :
    (l.lookup x).isSome = true ↔ x ∈ l.map Prod.fst := by
  induction l with
  | nil => simp [List.lookup]
  | cons p rest ih =>
    obtain ⟨k, v⟩ := p
    by_cases h : k = x
    · subst h; simp [List.lookup]
    · simp only [List.lookup, beq_false_of_ne (Ne.symm h), List.map_cons, List.mem_cons]
      rw [ih]
      simp [Ne.symm h]

theorem lookup_eq_none_iff {β : Type} (l : List (String × β)) (x : String) :
    l.lookup x = none ↔ x ∉ l.map Prod.fst := by
  rw [← lookup_isSome_iff]
  cases l.lookup x <;> simp

/-! ## The forward checker never produces a truthy result -/

theorem fcPropagateList_not_truthy
    (f : String → Val → Option (FCResult × Domains))
    (hf : ∀ w val res d, f w val = some (res, d) → res.truthy = false) :
    ∀ (l : List (String × Val)) (res : FCResult),
      fcPropagateList f l = some res → res = FCResult.bool false := by
  intro l
  induction l with
  | nil => intro res h; simpa [fcPropagateList] using h.symm
  | cons p rest ih =>
    obtain ⟨w, val⟩ := p
    intro res h
    simp only [fcPropagateList] at h
    cases hfw : f w val with
    | none => rw [hfw] at h; exact absurd h (by simp)
    | some q =>
      obtain ⟨res1, d1⟩ := q
      rw [hfw] at h
      have ht := hf w val res1 d1 hfw
      simp only [ht] at h
      exact ih res (by simpa using h)

/-- The source's `forwardChecking` never returns the boolean `true`: the
direct-wipeout path is a bare `return;` (`undefined`), so the cascade's
`find` never sees a truthy result either.  Consequently every completed run
has a falsy result. -/
theorem forwardChecking_not_truthy :
    ∀ (fuel : Nat) (doms : Domains) (cs : List Constraint) (v : String) (c : Val)
      (res : FCResult) (doms' : Domains),
      forwardCheckingFuel fuel doms cs v c = some (res, doms') → res.truthy = false := by
  intro fuel
  induction fuel with
  | zero => intro doms cs v c res doms' h; exact absurd h (by simp [forwardCheckingFuel])
  | succ f ih =>
    intro doms cs v c res doms' h
    simp only [forwardCheckingFuel] at h
    cases hscan : fcConstraints v c cs (setDom doms v [c]) [] with
    | error d =>
      rw [hscan] at h
      simp only [Option.some.injEq, Prod.mk.injEq] at h
      rw [← h.1]
      rfl
    | ok q =>
      obtain ⟨doms2, acc⟩ := q
      rw [hscan] at h
      by_cases hacc : acc.isEmpty
      · simp only [hacc, if_true] at h
        simp only [Option.some.injEq, Prod.mk.injEq] at h
        rw [← h.1]; rfl
      · simp only [hacc, if_false, Bool.false_eq_true] at h
        cases hp : fcPropagateList (fun w val => forwardCheckingFuel f doms2 cs w val) acc with
        | none => rw [hp] at h; exact absurd h (by simp)
        | some res1 =>
          rw [hp] at h
          simp only [Option.some.injEq, Prod.mk.injEq] at h
          have := fcPropagateList_not_truthy _
            (fun w val r d hr => ih doms2 cs w val r d hr) acc res1 hp
          rw [← h.1, this]; rfl

end CSPSolver

namespace CSPSolver

/-! ## Claim C10: a complete initial assignment is returned unvalidated -/

/-- C10: if `solve` is called with an initial assignment whose number of
entries equals the number of the CSP's variables, it returns that assignment
immediately — regardless of the constraints, so a complete but
constraint-violating initial assignment is returned as if it were a
solution. -/
theorem solve_complete_assignment_returned (fuel : Nat) (csp : CSP) (a : Assignment)
    (opts : SolverOptions) (h : a.length = csp.vars.length) :
    recursiveBacktracking (fuel + 1) csp a opts = some (some a) := by
  simp [recursiveBacktracking, h]

/-- Witness for C10: a complete assignment violating the distinctness
constraint is returned as a "solution". -/
theorem solve_complete_assignment_returned_witness :
    validateConstraints [("p", Val.vnat 1), ("q", Val.vnat 1)]
        [Constraint.mustBeDistinct ["p", "q"]] false = false ∧
    recursiveBacktracking 1
        (⟨["p", "q"], [("p", [Val.vnat 1]), ("q", [Val.vnat 1])],
          [Constraint.mustBeDistinct ["p", "q"]], none, none⟩ : CSP)
        [("p", Val.vnat 1), ("q", Val.vnat 1)] noOptions =
      some (some [("p", Val.vnat 1), ("q", Val.vnat 1)]) :=
  ⟨by decide, solve_complete_assignment_returned 0 _ _ _ (by decide)⟩

/-! ## Claim C1, counterexample: the claim fails for a complete initial
assignment that violates the constraints (it is returned unvalidated) -/

/-- C1 counterexample: with a complete but constraint-violating initial
assignment, `solve` returns a result that does not pass
`validateConstraints`, contradicting the claim's unconditional soundness. -/
theorem solve_returns_complete_invalid_start :
    recursiveBacktracking 5
        (⟨["m", "n"], [("m", [Val.vnat 1]), ("n", [Val.vnat 1])],
          [Constraint.mustBeDistinct ["m", "n"]], none, none⟩ : CSP)
        [("m", Val.vnat 1), ("n", Val.vnat 1)] noOptions =
      some (some [("m", Val.vnat 1), ("n", Val.vnat 1)]) ∧
    validateConstraints [("m", Val.vnat 1), ("n", Val.vnat 1)]
        [Constraint.mustBeDistinct ["m", "n"]] false = false := by
  decide

/-! ## Claim C2: the wipeout "signal" is the JavaScript `undefined` -/

/-- C2: on a direct domain wipeout (the other variable's domain is exactly
the assigned value), `forwardChecking` executes a bare `return;`: the
returned value is `undefined`, which is falsy — not the boolean `true` the
claim requires. -/
theorem forwardChecking_wipeout_returns_undefined :
    forwardCheckingFuel 1 [("x", [Val.vnat 1, Val.vnat 2]), ("y", [Val.vnat 1])]
        [Constraint.mustBeDistinct ["x", "y"]] "x" (Val.vnat 1) =
      some (FCResult.undef, [("x", [Val.vnat 1]), ("y", [Val.vnat 1])]) ∧
    FCResult.undef.truthy = false := by
  decide

/-! ## Claim C3, counterexample: the search recurses into a wiped-out value -/

/-- C3 counterexample: forward-checking value `1` for `v` hits a wipeout
(`w`'s domain is exactly `[1]`), yet the search does not abandon the value:
it recurses and returns `{v: 1}` (the falsy `undefined` wipeout result never
triggers the abandon branch). -/
theorem solve_recurses_into_wiped_value :
    forwardCheckingFuel 1 wipeoutCSP.domains wipeoutCSP.constraints "v" (Val.vnat 1) =
      some (FCResult.undef, [("v", [Val.vnat 1]), ("w", [Val.vnat 1])]) ∧
    recursiveBacktracking 3 wipeoutCSP [] fcOptions = some (some [("v", Val.vnat 1)]) := by
  decide

/-! ## Claim C5: the distinctness scan compares a variable with itself -/

/-- C5: for a three-variable distinctness constraint, an assignment giving
pairwise-distinct values to all three variables is nonetheless rejected: the
inner loop restarts at index 1 instead of `i + 1`, so the pair
`(vars[1], vars[1])` is compared with itself and always "collides". -/
theorem distinct_selfpair_rejects_valid_assignment :
    (Val.vnat 1 ≠ Val.vnat 2 ∧ Val.vnat 1 ≠ Val.vnat 3 ∧ Val.vnat 2 ≠ Val.vnat 3) ∧
    validateConstraints [("x", Val.vnat 1), ("y", Val.vnat 2), ("z", Val.vnat 3)]
        [Constraint.mustBeDistinct ["x", "y", "z"]] false = false := by
  decide

/-! ## Claim C4: conditional-satisfaction semantics -/

/-- A single-constraint validation fails exactly when the constraint check
aborts. -/
theorem validate_single_false_iff (a : Assignment) (c : Constraint) :
    validateConstraints a [c] false = false ↔ checkConstraint a c false = none := by
  simp only [validateConstraints, validateGo]
  cases h : checkConstraint a c false <;> simp [h, validateGo]

/-- The `MUST_SATISFY` check aborts exactly when all target variables are
present, at least one matches and at least one differs. -/
theorem checkMustSatisfy_none_iff (a : Assignment) (t : List (String × Val)) (r0 : Bool) :
    checkMustSatisfy a t r0 = none ↔
      (∀ p ∈ t, (a.lookup p.1).isSome = true) ∧
      (∃ p ∈ t, a.lookup p.1 = some p.2) ∧
      (∃ p ∈ t, a.lookup p.1 ≠ some p.2) := by
  simp only [checkMustSatisfy]
  by_cases habs : t.any (fun p => (a.lookup p.1).isNone) = true
  · rw [if_pos habs]
    constructor
    · intro h; exact Option.noConfusion h
    · rintro ⟨hall, -, -⟩
      simp only [List.any_eq_true] at habs
      obtain ⟨p, hp, hnone⟩ := habs
      have hs := hall p hp
      rw [Option.isNone_iff_eq_none.mp hnone] at hs
      simp at hs
  · rw [if_neg habs]
    have hall : ∀ p ∈ t, (a.lookup p.1).isSome = true := by
      intro p hp
      by_contra hns
      apply habs
      simp only [List.any_eq_true]
      refine ⟨p, hp, ?_⟩
      cases hl : a.lookup p.1 with
      | none => rfl
      | some v => rw [hl] at hns; exact absurd rfl hns
    cases htf : (t.any (fun p => decide (a.lookup p.1 = some p.2)) &&
        t.any (fun p => decide (a.lookup p.1 ≠ some p.2))) with
    | true =>
      rw [if_pos rfl]
      simp only [Bool.and_eq_true, List.any_eq_true, decide_eq_true_eq] at htf
      simp only [true_iff]
      exact ⟨hall, htf.1, htf.2⟩
    | false =>
      rw [if_neg (fun hc => Bool.noConfusion hc)]
      constructor
      · intro h; exact Option.noConfusion h
      · rintro ⟨-, ⟨p, hp, he⟩, ⟨q, hq, hne⟩⟩
        have h1 : t.any (fun p => decide (a.lookup p.1 = some p.2)) = true :=
          List.any_eq_true.mpr ⟨p, hp, decide_eq_true he⟩
        have h2 : t.any (fun p => decide (a.lookup p.1 ≠ some p.2)) = true :=
          List.any_eq_true.mpr ⟨q, hq, decide_eq_true hne⟩
        rw [h1, h2] at htf
        exact Bool.noConfusion htf

/-- C4 (amended): for a conditional-satisfaction constraint, the validator
reports a violation exactly when all target variables are present in the
assignment and at least one equals its required value while at least one
differs; if any target variable is absent the constraint is skipped
(vacuously satisfied), not merely when no target variable is present. -/
theorem mustSatisfy_violation_iff (target : List (String × Val)) (a : Assignment) :
    validateConstraints a [Constraint.mustSatisfy target] false = false ↔
      (∀ p ∈ target, (a.lookup p.1).isSome = true) ∧
      (∃ p ∈ target, a.lookup p.1 = some p.2) ∧
      (∃ p ∈ target, a.lookup p.1 ≠ some p.2) := by
  rw [validate_single_false_iff]
  exact checkMustSatisfy_none_iff a target false

/-- C4 counterexample: target `{a:1, b:2, c:3}`, assignment `{a:1, b:5}`.
The present target variables are `a` (matching) and `b` (differing), so the
claim demands a violation; the code skips the constraint because `c` is
absent and reports the assignment as consistent. -/
theorem mustSatisfy_partial_presence_skipped :
    (([("a", Val.vnat 1), ("b", Val.vnat 5)] : Assignment).lookup "a" = some (Val.vnat 1)) ∧
    (([("a", Val.vnat 1), ("b", Val.vnat 5)] : Assignment).lookup "b" = some (Val.vnat 5)) ∧
    Val.vnat 5 ≠ Val.vnat 2 ∧
    validateConstraints [("a", Val.vnat 1), ("b", Val.vnat 5)]
        [Constraint.mustSatisfy [("a", Val.vnat 1), ("b", Val.vnat 2), ("c", Val.vnat 3)]]
        false = true := by
  decide

/-! ## Claim C6, counterexample: idempotence fails for asymmetric arc lists -/

/-- C6 counterexample: on a CSP whose arc list is not symmetric, the first
AC-3 run completes without wipeout, yet a second run still removes a value
from `a`'s domain (the arc `(a, x)` is never re-enqueued because `x` has no
arc back to `a`). -/
theorem arcConsistency_not_idempotent_asymmetric :
    arcConsistencyFuel 30 asymCSP = some (false, asymCSPAfterOne) ∧
    arcConsistencyFuel 30 asymCSPAfterOne = some (false, asymCSPAfterTwo) ∧
    asymCSPAfterTwo.domains ≠ asymCSPAfterOne.domains := by
  decide

end CSPSolver

namespace CSPSolver

/-! ## Claim C7: forward checking only shrinks domains -/

theorem fcPrune_shrink (value : Val) :
    ∀ (L : List String) (doms : Domains) (acc : List (String × Val)),
      (∀ d, fcPrune value L doms acc = .error d →
        ∀ w, domLookup d w ⊆ domLookup doms w) ∧
      (∀ d acc1, fcPrune value L doms acc = .ok (d, acc1) →
        ∀ w, domLookup d w ⊆ domLookup doms w) := by
  intro L
  induction L with
  | nil =>
    intro doms acc
    constructor
    · intro d h; exact absurd h (by simp [fcPrune])
    · intro d acc1 h w
      simp only [fcPrune, Except.ok.injEq, Prod.mk.injEq] at h
      rw [h.1]
      exact fun z hz => hz
  | cons w' rest ih =>
    intro doms acc
    have hstep : ∀ (doms1 : Domains) (acc2 : List (String × Val)),
        (∀ u, domLookup doms1 u ⊆ domLookup doms u) →
        (∀ d, fcPrune value rest doms1 acc2 = .error d →
          ∀ u, domLookup d u ⊆ domLookup doms u) ∧
        (∀ d acc1, fcPrune value rest doms1 acc2 = .ok (d, acc1) →
          ∀ u, domLookup d u ⊆ domLookup doms u) := by
      intro doms1 acc2 h1
      exact ⟨fun d hd u => (ih doms1 acc2).1 d hd u |>.trans (h1 u),
             fun d acc1 hd u => (ih doms1 acc2).2 d acc1 hd u |>.trans (h1 u)⟩
    by_cases hmem : value ∈ domLookup doms w'
    · by_cases hlen : (domLookup doms w').length = 1
      · constructor
        · intro d h w
          simp only [fcPrune, if_pos hmem, if_pos hlen, Except.error.injEq] at h
          rw [h]
          exact fun z hz => hz
        · intro d acc1 h
          simp only [fcPrune, if_pos hmem, if_pos hlen] at h
          exact absurd h (by simp)
      · have hsub : ∀ u, domLookup (setDom doms w'
            ((domLookup doms w').filter (fun u => decide (u ≠ value)))) u ⊆ domLookup doms u := by
          intro u
          rw [domLookup_setDom]
          by_cases hu : u = w'
          · rw [if_pos hu, hu]
            exact fun z hz => List.mem_of_mem_filter hz
          · rw [if_neg hu]
            exact fun z hz => hz
        by_cases hone : ((domLookup doms w').filter (fun u => decide (u ≠ value))).length = 1
        · constructor
          · intro d h
            simp only [fcPrune, if_pos hmem, if_neg hlen, dif_pos hone] at h
            exact ((hstep _ _ hsub).1 d h)
          · intro d acc1 h
            simp only [fcPrune, if_pos hmem, if_neg hlen, dif_pos hone] at h
            exact ((hstep _ _ hsub).2 d acc1 h)
        · constructor
          · intro d h
            simp only [fcPrune, if_pos hmem, if_neg hlen, dif_neg hone] at h
            exact ((hstep _ _ hsub).1 d h)
          · intro d acc1 h
            simp only [fcPrune, if_pos hmem, if_neg hlen, dif_neg hone] at h
            exact ((hstep _ _ hsub).2 d acc1 h)
    · constructor
      · intro d h
        simp only [fcPrune, if_neg hmem] at h
        exact (ih doms acc).1 d h
      · intro d acc1 h
        simp only [fcPrune, if_neg hmem] at h
        exact (ih doms acc).2 d acc1 h

theorem fcConstraints_shrink (variab : String) (value : Val) :
    ∀ (L : List Constraint) (doms : Domains) (acc : List (String × Val)),
      (∀ d, fcConstraints variab value L doms acc = .error d →
        ∀ w, domLookup d w ⊆ domLookup doms w) ∧
      (∀ d acc1, fcConstraints variab value L doms acc = .ok (d, acc1) →
        ∀ w, domLookup d w ⊆ domLookup doms w) := by
  intro L
  induction L with
  | nil =>
    intro doms acc
    constructor
    · intro d h; exact absurd h (by simp [fcConstraints])
    · intro d acc1 h w
      simp only [fcConstraints, Except.ok.injEq, Prod.mk.injEq] at h
      rw [h.1]
      exact fun z hz => hz
  | cons c rest ih =>
    intro doms acc
    cases c with
    | mustSatisfy t =>
      exact ⟨fun d h => (ih doms acc).1 d (by simpa [fcConstraints] using h),
             fun d acc1 h => (ih doms acc).2 d acc1 (by simpa [fcConstraints] using h)⟩
    | mustBeDistinct vars =>
      by_cases hv : variab ∈ vars
      · cases hp : fcPrune value (vars.filter (fun v => decide (v ≠ variab))) doms acc with
        | error d0 =>
          have hd0 := (fcPrune_shrink value _ doms acc).1 d0 hp
          constructor
          · intro d h
            simp only [fcConstraints, if_pos hv, hp] at h
            cases h
            exact hd0
          · intro d acc1 h
            simp only [fcConstraints, if_pos hv, hp] at h
            exact absurd h (by simp)
        | ok q =>
          obtain ⟨doms1, acc1⟩ := q
          have hd1 := (fcPrune_shrink value _ doms acc).2 doms1 acc1 hp
          constructor
          · intro d h
            simp only [fcConstraints, if_pos hv, hp] at h
            exact fun w => ((ih doms1 acc1).1 d h w).trans (hd1 w)
          · intro d acc2 h
            simp only [fcConstraints, if_pos hv, hp] at h
            exact fun w => ((ih doms1 acc1).2 d acc2 h w).trans (hd1 w)
      · exact ⟨fun d h => (ih doms acc).1 d (by simpa [fcConstraints, hv] using h),
               fun d acc1 h => (ih doms acc).2 d acc1 (by simpa [fcConstraints, hv] using h)⟩

/-- C7: a completed forward-checking call that does not signal wipeout only
shrinks domains: afterwards every variable's domain is a subset of (or equal
to) its domain before the call, provided the assigned value was drawn from
the variable's current domain. -/
theorem forwardChecking_monotone (fuel : Nat) (doms : Domains) (cs : List Constraint)
    (v : String) (c : Val) (res : FCResult) (doms' : Domains)
    (hmem : c ∈ domLookup doms v)
    (hrun : forwardCheckingFuel fuel doms cs v c = some (res, doms'))
    (_hnw : res.truthy = false) :
    ∀ w, domLookup doms' w ⊆ domLookup doms w := by
  cases fuel with
  | zero => exact absurd hrun (by simp [forwardCheckingFuel])
  | succ f =>
    have hstep : ∀ u, domLookup (setDom doms v [c]) u ⊆ domLookup doms u := by
      intro u
      rw [domLookup_setDom]
      by_cases hu : u = v
      · rw [if_pos hu, hu]
        intro z hz
        rw [List.mem_singleton.mp hz]
        exact hmem
      · rw [if_neg hu]
        exact fun z hz => hz
    simp only [forwardCheckingFuel] at hrun
    cases hscan : fcConstraints v c cs (setDom doms v [c]) [] with
    | error d =>
      rw [hscan] at hrun
      simp only [Option.some.injEq, Prod.mk.injEq] at hrun
      rw [← hrun.2]
      exact fun w =>
        ((fcConstraints_shrink v c cs (setDom doms v [c]) []).1 d hscan w).trans (hstep w)
    | ok q =>
      obtain ⟨doms2, acc⟩ := q
      rw [hscan] at hrun
      have hd2 : ∀ w, domLookup doms2 w ⊆ domLookup doms w :=
        fun w =>
          ((fcConstraints_shrink v c cs (setDom doms v [c]) []).2 doms2 acc hscan w).trans
            (hstep w)
      by_cases hacc : acc.isEmpty
      · simp only [hacc, if_true, Option.some.injEq, Prod.mk.injEq] at hrun
        rw [← hrun.2]
        exact hd2
      · simp only [hacc, if_false, Bool.false_eq_true] at hrun
        cases hp : fcPropagateList (fun w val => forwardCheckingFuel f doms2 cs w val) acc with
        | none => rw [hp] at hrun; exact absurd hrun (by simp)
        | some res1 =>
          rw [hp] at hrun
          simp only [Option.some.injEq, Prod.mk.injEq] at hrun
          rw [← hrun.2]
          exact hd2

/-- Witness for C7 at a concrete run: forward-checking `x := 1` against
`{x: [1,2], y: [1,2]}` with a distinctness constraint completes without
wipeout and shrinks both domains. -/
theorem forwardChecking_monotone_witness :
    Val.vnat 1 ∈ domLookup [("x", [Val.vnat 1, Val.vnat 2]), ("y", [Val.vnat 1, Val.vnat 2])] "x" ∧
    domLookup [("x", [Val.vnat 1]), ("y", [Val.vnat 2])] "y" ⊆
      domLookup [("x", [Val.vnat 1, Val.vnat 2]), ("y", [Val.vnat 1, Val.vnat 2])] "y" :=
  ⟨by decide,
   forwardChecking_monotone 2
     [("x", [Val.vnat 1, Val.vnat 2]), ("y", [Val.vnat 1, Val.vnat 2])]
     [Constraint.mustBeDistinct ["x", "y"]] "x" (Val.vnat 1)
     (FCResult.bool false) [("x", [Val.vnat 1]), ("y", [Val.vnat 2])]
     (by decide) (by decide) (by decide) "y"⟩

end CSPSolver

namespace CSPSolver

/-! ## Fuel monotonicity: a completed run is stable under extra fuel -/

theorem fcPropagateList_mono (f g : String → Val → Option (FCResult × Domains))
    (hfg : ∀ w val r, f w val = some r → g w val = some r) :
    ∀ (l : List (String × Val)) (r : FCResult),
      fcPropagateList f l = some r → fcPropagateList g l = some r := by
  intro l
  induction l with
  | nil => intro r h; exact h
  | cons p rest ih =>
    obtain ⟨w, val⟩ := p
    intro r h
    simp only [fcPropagateList] at h ⊢
    cases hf : f w val with
    | none => rw [hf] at h; exact absurd h (by simp)
    | some q =>
      rw [hf] at h
      rw [hfg w val q hf]
      obtain ⟨res1, d1⟩ := q
      by_cases ht : res1.truthy
      · simpa [ht] using h
      · simp only [ht, if_false, Bool.false_eq_true] at h ⊢
        exact ih r h

theorem forwardCheckingFuel_mono :
    ∀ (f1 f2 : Nat), f1 ≤ f2 → ∀ (doms : Domains) (cs : List Constraint) (v : String)
      (c : Val) (r : FCResult × Domains),
      forwardCheckingFuel f1 doms cs v c = some r →
      forwardCheckingFuel f2 doms cs v c = some r := by
  intro f1
  induction f1 with
  | zero => intro f2 _ doms cs v c r h; exact absurd h (by simp [forwardCheckingFuel])
  | succ f ih =>
    intro f2 hle doms cs v c r h
    cases f2 with
    | zero => exact absurd hle (by omega)
    | succ f2' =>
      have hle' : f ≤ f2' := by omega
      simp only [forwardCheckingFuel] at h ⊢
      cases hscan : fcConstraints v c cs (setDom doms v [c]) [] with
      | error d => rw [hscan] at h; exact h
      | ok q =>
        obtain ⟨doms2, acc⟩ := q
        rw [hscan] at h
        by_cases hacc : acc.isEmpty
        · simp only [hacc, if_true] at h ⊢; exact h
        · simp only [hacc, if_false, Bool.false_eq_true] at h ⊢
          cases hp : fcPropagateList (fun w val => forwardCheckingFuel f doms2 cs w val) acc with
          | none => rw [hp] at h; exact absurd h (by simp)
          | some res1 =>
            rw [hp] at h
            rw [fcPropagateList_mono _ _ (fun w val r hr => ih f2' hle' doms2 cs w val r hr)
              acc res1 hp]
            exact h

theorem ac3Loop_mono (cs : List Constraint) (nbrs : List (String × List String)) :
    ∀ (f1 f2 : Nat), f1 ≤ f2 → ∀ (queue : List (String × String)) (doms : Domains)
      (r : Bool × Domains),
      ac3Loop cs nbrs f1 queue doms = some r → ac3Loop cs nbrs f2 queue doms = some r := by
  intro f1
  induction f1 with
  | zero => intro f2 _ queue doms r h; exact absurd h (by simp [ac3Loop])
  | succ f ih =>
    intro f2 hle queue doms r h
    cases f2 with
    | zero => exact absurd hle (by omega)
    | succ f2' =>
      have hle' : f ≤ f2' := by omega
      cases queue with
      | nil => exact h
      | cons p rest =>
        obtain ⟨x, y⟩ := p
        simp only [ac3Loop] at h ⊢
        by_cases hrem : (removeInconsistentValues cs doms x y).2
        · simp only [hrem, if_true] at h ⊢
          by_cases hemp : (domLookup (removeInconsistentValues cs doms x y).1 x).isEmpty
          · simp only [hemp, if_true] at h ⊢; exact h
          · simp only [hemp, if_false, Bool.false_eq_true] at h ⊢
            exact ih f2' hle' _ _ r h
        · simp only [hrem, if_false, Bool.false_eq_true] at h ⊢
          exact ih f2' hle' _ _ r h

theorem arcConsistencyFuel_mono (f1 f2 : Nat) (hle : f1 ≤ f2) (csp : CSP)
    (r : Bool × CSP) (h : arcConsistencyFuel f1 csp = some r) :
    arcConsistencyFuel f2 csp = some r := by
  simp only [arcConsistencyFuel] at h ⊢
  cases harcs : csp.arcs with
  | none => rw [harcs] at h; exact absurd h (by simp)
  | some arcs =>
    rw [harcs] at h
    dsimp only at h ⊢
    cases hl : ac3Loop (computeNeighbours csp).constraints
        ((computeNeighbours csp).neighbours.getD []) f1 arcs (computeNeighbours csp).domains with
    | none => rw [hl] at h; exact absurd h (by simp)
    | some q =>
      rw [hl] at h
      rw [ac3Loop_mono _ _ f1 f2 hle arcs _ q hl]
      exact h

theorem tryValues_mono (sf sg : CSP → Assignment → Option (Option Assignment))
    (fcf fcg : Domains → List Constraint → String → Val → Option (FCResult × Domains))
    (hs : ∀ c b r, sf c b = some r → sg c b = some r)
    (hf : ∀ d cs x v r, fcf d cs x v = some r → fcg d cs x v = some r)
    (csp : CSP) (a : Assignment) (opts : SolverOptions) (x : String) :
    ∀ (vals : List Val) (r : Option Assignment),
      tryValues sf fcf csp a opts x vals = some r → tryValues sg fcg csp a opts x vals = some r := by
  intro vals
  induction vals with
  | nil => intro r h; exact h
  | cons value rest ih =>
    intro r h
    simp only [tryValues] at h ⊢
    by_cases hval : validateConstraints (a ++ [(x, value)]) csp.constraints false
    · simp only [hval, if_true] at h ⊢
      by_cases hfc : opts.forwardChecking
      · simp only [hfc, if_true] at h ⊢
        cases hrun : fcf csp.domains csp.constraints x value with
        | none => rw [hrun] at h; exact absurd h (by simp)
        | some q =>
          rw [hrun] at h
          rw [hf _ _ _ _ q hrun]
          obtain ⟨res, doms2⟩ := q
          by_cases ht : res.truthy
          · simpa [ht] using h
          · simp only [ht, if_false, Bool.false_eq_true] at h ⊢
            cases hrec : sf { csp with domains := doms2 } (a ++ [(x, value)]) with
            | none => rw [hrec] at h; exact absurd h (by simp)
            | some q2 =>
              rw [hrec] at h
              rw [hs _ _ q2 hrec]
              cases q2 with
              | none => exact ih r h
              | some r0 => exact h
      · simp only [hfc, if_false, Bool.false_eq_true] at h ⊢
        cases hrec : sf csp (a ++ [(x, value)]) with
        | none => rw [hrec] at h; exact absurd h (by simp)
        | some q2 =>
          rw [hrec] at h
          rw [hs _ _ q2 hrec]
          cases q2 with
          | none => exact ih r h
          | some r0 => exact h
    · simp only [hval, if_false, Bool.false_eq_true] at h ⊢
      exact ih r h

theorem recursiveBacktracking_mono :
    ∀ (f1 f2 : Nat), f1 ≤ f2 → ∀ (csp : CSP) (a : Assignment) (opts : SolverOptions)
      (r : Option Assignment),
      recursiveBacktracking f1 csp a opts = some r →
      recursiveBacktracking f2 csp a opts = some r := by
  intro f1
  induction f1 with
  | zero => intro f2 _ csp a opts r h; exact absurd h (by simp [recursiveBacktracking])
  | succ f ih =>
    intro f2 hle csp a opts r h
    cases f2 with
    | zero => exact absurd hle (by omega)
    | succ f2' =>
      have hle' : f ≤ f2' := by omega
      simp only [recursiveBacktracking] at h ⊢
      by_cases hbase : a.length = csp.vars.length
      · simp only [hbase, if_true] at h ⊢; exact h
      · simp only [hbase, if_false] at h ⊢
        by_cases hac : opts.arcConsistency
        · simp only [hac, if_true] at h ⊢
          cases hrun : arcConsistencyFuel f csp with
          | none => rw [hrun] at h; exact absurd h (by simp)
          | some q =>
            rw [hrun] at h
            rw [arcConsistencyFuel_mono f f2' hle' csp q hrun]
            obtain ⟨b, csp1⟩ := q
            cases b with
            | true => exact h
            | false =>
              dsimp only at h ⊢
              cases hfind : csp1.vars.find? (fun v => (a.lookup v).isNone) with
              | none => rw [hfind] at h; exact absurd h (by simp)
              | some x =>
                rw [hfind] at h
                exact tryValues_mono _ _ _ _
                  (fun c b r0 hr => ih f2' hle' c b opts r0 hr)
                  (fun d cs x0 v r0 hr => forwardCheckingFuel_mono f f2' hle' d cs x0 v r0 hr)
                  csp1 a opts x _ r h
        · simp only [hac, if_false, Bool.false_eq_true] at h ⊢
          cases hfind : csp.vars.find? (fun v => (a.lookup v).isNone) with
          | none => rw [hfind] at h; exact absurd h (by simp)
          | some x =>
            rw [hfind] at h
            exact tryValues_mono _ _ _ _
              (fun c b r0 hr => ih f2' hle' c b opts r0 hr)
              (fun d cs x0 v r0 hr => forwardCheckingFuel_mono f f2' hle' d cs x0 v r0 hr)
              csp a opts x _ r h

/-! ## Claim C8: the Lion-Unicorn runs -/

/-- C8: on the Lion-Unicorn problem, `solve` with the empty initial
assignment returns exactly `{today: "Thursday", lion: true, unicorn: false}`
under plain backtracking and under AC-3-enabled backtracking (for any
sufficient recursion fuel). -/
theorem lionUnicorn_solution (f1 f2 : Nat) (h1 : 10 ≤ f1) (h2 : 60 ≤ f2) :
    recursiveBacktracking f1 LionUnicorn [] noOptions =
      some (some [("today", Val.vstr "Thursday"), ("lion", Val.vbool true),
                  ("unicorn", Val.vbool false)]) ∧
    recursiveBacktracking f2 LionUnicorn [] acOptions =
      some (some [("today", Val.vstr "Thursday"), ("lion", Val.vbool true),
                  ("unicorn", Val.vbool false)]) :=
  ⟨recursiveBacktracking_mono 10 f1 h1 _ _ _ _ (by decide),
   recursiveBacktracking_mono 60 f2 h2 _ _ _ _ (by decide)⟩

/-- Witness for C8 at the smallest stated fuel amounts. -/
theorem lionUnicorn_solution_witness :
    recursiveBacktracking 10 LionUnicorn [] noOptions =
      some (some [("today", Val.vstr "Thursday"), ("lion", Val.vbool true),
                  ("unicorn", Val.vbool false)]) ∧
    recursiveBacktracking 60 LionUnicorn [] acOptions =
      some (some [("today", Val.vstr "Thursday"), ("lion", Val.vbool true),
                  ("unicorn", Val.vbool false)]) :=
  lionUnicorn_solution 10 60 (by decide) (by decide)

end CSPSolver

namespace CSPSolver

/-! ## Claim C3 (amended): the wipeout guard never fires -/

/-- C3 (amended): in the value loop with `forwardChecking` enabled, a
validated candidate value whose forward check completes is always recursed
into — the forward-checking result is never truthy (the wipeout path returns
`undefined`), so the search never abandons a value, let alone a variable,
because of a wipeout. -/
theorem tryValues_never_abandons_value (fuel : Nat) (csp : CSP) (a : Assignment)
    (opts : SolverOptions) (x : String) (value : Val) (rest : List Val)
    (res : FCResult) (doms2 : Domains)
    (hfc : opts.forwardChecking = true)
    (hval : validateConstraints (a ++ [(x, value)]) csp.constraints false = true)
    (hrun : forwardCheckingFuel fuel csp.domains csp.constraints x value = some (res, doms2)) :
    tryValues (fun c b => recursiveBacktracking fuel c b opts) (forwardCheckingFuel fuel)
        csp a opts x (value :: rest) =
      match recursiveBacktracking fuel { csp with domains := doms2 } (a ++ [(x, value)]) opts with
      | none => none
      | some (some r) => some (some r)
      | some none =>
        tryValues (fun c b => recursiveBacktracking fuel c b opts) (forwardCheckingFuel fuel)
          csp a opts x rest := by
  have ht : res.truthy = false := forwardChecking_not_truthy fuel _ _ _ _ res doms2 hrun
  simp only [tryValues, hval, if_true, hfc, hrun, ht, if_false, Bool.false_eq_true]

/-- Witness for C3 (amended), at the wipeout instance of the counterexample:
the loop recurses into the wiped-out value. -/
theorem tryValues_never_abandons_value_witness :
    validateConstraints [("v", Val.vnat 1)] wipeoutCSP.constraints false = true ∧
    tryValues (fun c b => recursiveBacktracking 1 c b fcOptions) (forwardCheckingFuel 1)
        wipeoutCSP [] fcOptions "v" [Val.vnat 1] =
      match recursiveBacktracking 1
          { wipeoutCSP with domains := [("v", [Val.vnat 1]), ("w", [Val.vnat 1])] }
          [("v", Val.vnat 1)] fcOptions with
      | none => none
      | some (some r) => some (some r)
      | some none =>
        tryValues (fun c b => recursiveBacktracking 1 c b fcOptions) (forwardCheckingFuel 1)
          wipeoutCSP [] fcOptions "v" [] :=
  ⟨by decide,
   tryValues_never_abandons_value 1 wipeoutCSP [] fcOptions "v" (Val.vnat 1) []
     FCResult.undef [("v", [Val.vnat 1]), ("w", [Val.vnat 1])] rfl (by decide) (by decide)⟩

end CSPSolver

namespace CSPSolver

/-! ## Claim C1 (amended): soundness of the search from an incomplete start -/

theorem computeNeighbours_preserves (csp : CSP) :
    (computeNeighbours csp).vars = csp.vars ∧
    (computeNeighbours csp).constraints = csp.constraints ∧
    (computeNeighbours csp).domains = csp.domains ∧
    (computeNeighbours csp).arcs = csp.arcs := by
  unfold computeNeighbours
  cases harcs : csp.arcs <;> cases hnb : csp.neighbours <;> simp [harcs, hnb]

theorem arcConsistencyFuel_preserves (fuel : Nat) (csp : CSP) (b : Bool) (csp' : CSP)
    (h : arcConsistencyFuel fuel csp = some (b, csp')) :
    csp'.vars = csp.vars ∧ csp'.constraints = csp.constraints ∧ csp'.arcs = csp.arcs := by
  simp only [arcConsistencyFuel] at h
  cases harcs : csp.arcs with
  | none => rw [harcs] at h; exact absurd h (by simp)
  | some arcs =>
    rw [harcs] at h
    dsimp only at h
    cases hl : ac3Loop (computeNeighbours csp).constraints
        ((computeNeighbours csp).neighbours.getD []) fuel arcs (computeNeighbours csp).domains with
    | none => rw [hl] at h; exact absurd h (by simp)
    | some q =>
      obtain ⟨b0, doms⟩ := q
      rw [hl] at h
      dsimp only at h
      have hcsp := congrArg Prod.snd (Option.some.inj h)
      dsimp only at hcsp
      rw [← hcsp]
      obtain ⟨h1, h2, -, h4⟩ := computeNeighbours_preserves csp
      exact ⟨h1, h2, h4.trans harcs⟩

theorem tryValues_result_inv
    (solveF : CSP → Assignment → Option (Option Assignment))
    (fcF : Domains → List Constraint → String → Val → Option (FCResult × Domains))
    (csp1 : CSP) (a : Assignment) (opts : SolverOptions) (x : String)
    (hsolve : ∀ (csp2 : CSP) (b : Assignment) (r : Assignment),
      csp2.vars = csp1.vars → csp2.constraints = csp1.constraints →
      (b.map Prod.fst).Nodup → (∀ k ∈ b.map Prod.fst, k ∈ csp1.vars) →
      b.length ≤ csp1.vars.length →
      solveF csp2 b = some (some r) →
      (b.length = csp1.vars.length ∧ r = b) ∨
        ((r.map Prod.fst).Nodup ∧ (∀ k ∈ r.map Prod.fst, k ∈ csp1.vars) ∧
         r.length = csp1.vars.length ∧ validateConstraints r csp1.constraints false = true))
    (hnd : (a.map Prod.fst).Nodup)
    (hsub : ∀ k ∈ a.map Prod.fst, k ∈ csp1.vars)
    (hlt : a.length < csp1.vars.length)
    (hxv : x ∈ csp1.vars)
    (hx : x ∉ a.map Prod.fst) :
    ∀ (vals : List Val) (r : Assignment),
      tryValues solveF fcF csp1 a opts x vals = some (some r) →
      ((r.map Prod.fst).Nodup ∧ (∀ k ∈ r.map Prod.fst, k ∈ csp1.vars) ∧
       r.length = csp1.vars.length ∧ validateConstraints r csp1.constraints false = true) := by
  intro vals
  induction vals with
  | nil => intro r h; exact absurd h (by simp [tryValues])
  | cons value rest ihv =>
    intro r h
    have hndA : ((a ++ [(x, value)]).map Prod.fst).Nodup := by
      rw [List.map_append]
      rw [List.nodup_append]
      exact ⟨hnd, List.nodup_singleton x, by simpa [List.disjoint_singleton] using hx⟩
    have hsubA : ∀ k ∈ (a ++ [(x, value)]).map Prod.fst, k ∈ csp1.vars := by
      intro k hk
      rw [List.map_append, List.mem_append] at hk
      cases hk with
      | inl hk => exact hsub k hk
      | inr hk =>
        have hkx : k = x := by simpa using hk
        rw [hkx]; exact hxv
    have hlenA : (a ++ [(x, value)]).length ≤ csp1.vars.length := by
      simp only [List.length_append, List.length_singleton]
      omega
    simp only [tryValues] at h
    by_cases hval : validateConstraints (a ++ [(x, value)]) csp1.constraints false
    · simp only [hval, if_true] at h
      by_cases hfc : opts.forwardChecking = true
      · simp only [hfc, if_true] at h
        cases hrun : fcF csp1.domains csp1.constraints x value with
        | none => rw [hrun] at h; exact absurd h (by simp)
        | some q =>
          obtain ⟨res, doms2⟩ := q
          rw [hrun] at h
          dsimp only at h
          by_cases ht : res.truthy = true
          · rw [if_pos ht] at h
            exact absurd h (by simp)
          · rw [if_neg ht] at h
            cases hrec : solveF { csp1 with domains := doms2 } (a ++ [(x, value)]) with
            | none => rw [hrec] at h; exact absurd h (by simp)
            | some q2 =>
              rw [hrec] at h
              cases q2 with
              | none => exact ihv r h
              | some r0 =>
                have hr : r = r0 := by
                  dsimp only at h
                  exact (Option.some.inj (Option.some.inj h)).symm
                subst hr
                rcases hsolve { csp1 with domains := doms2 } _ r rfl rfl hndA hsubA hlenA hrec
                  with hL | hR
                · obtain ⟨hlen1, hra⟩ := hL
                  subst hra
                  exact ⟨hndA, hsubA, hlen1, hval⟩
                · exact hR
      · simp only [hfc, if_false, Bool.false_eq_true] at h
        cases hrec : solveF csp1 (a ++ [(x, value)]) with
        | none => rw [hrec] at h; exact absurd h (by simp)
        | some q2 =>
          rw [hrec] at h
          cases q2 with
          | none => exact ihv r h
          | some r0 =>
            have hr : r = r0 := by
              dsimp only at h
              exact (Option.some.inj (Option.some.inj h)).symm
            subst hr
            rcases hsolve _ _ r rfl rfl hndA hsubA hlenA hrec with hL | hR
            · obtain ⟨hlen1, hra⟩ := hL
              subst hra
              exact ⟨hndA, hsubA, hlen1, hval⟩
            · exact hR
    · simp only [hval, if_false, Bool.false_eq_true] at h
      exact ihv r h

theorem solve_result_inv :
    ∀ (fuel : Nat) (csp : CSP) (a : Assignment) (opts : SolverOptions) (r : Assignment),
      (a.map Prod.fst).Nodup →
      (∀ k ∈ a.map Prod.fst, k ∈ csp.vars) →
      a.length ≤ csp.vars.length →
      recursiveBacktracking fuel csp a opts = some (some r) →
      (a.length = csp.vars.length ∧ r = a) ∨
        ((r.map Prod.fst).Nodup ∧ (∀ k ∈ r.map Prod.fst, k ∈ csp.vars) ∧
         r.length = csp.vars.length ∧ validateConstraints r csp.constraints false = true) := by
  intro fuel
  induction fuel with
  | zero => intro csp a opts r _ _ _ h; exact absurd h (by simp [recursiveBacktracking])
  | succ f ih =>
    intro csp a opts r hnd hsub hle h
    simp only [recursiveBacktracking] at h
    by_cases hbase : a.length = csp.vars.length
    · rw [if_pos hbase] at h
      exact Or.inl ⟨hbase, (Option.some.inj (Option.some.inj h)).symm⟩
    · rw [if_neg hbase] at h
      have hlt : a.length < csp.vars.length := lt_of_le_of_ne hle hbase
      refine Or.inr ?_
      have main : ∀ (csp1 : CSP), csp1.vars = csp.vars → csp1.constraints = csp.constraints →
          (match csp1.vars.find? (fun v => (a.lookup v).isNone) with
           | none => none
           | some x => tryValues (fun c b => recursiveBacktracking f c b opts)
               (forwardCheckingFuel f) csp1 a opts x (domLookup csp1.domains x)) =
            some (some r) →
          ((r.map Prod.fst).Nodup ∧ (∀ k ∈ r.map Prod.fst, k ∈ csp.vars) ∧
           r.length = csp.vars.length ∧ validateConstraints r csp.constraints false = true) := by
        intro csp1 hv hc hm
        cases hfind : csp1.vars.find? (fun v => (a.lookup v).isNone) with
        | none => rw [hfind] at hm; exact absurd hm (by simp)
        | some x =>
          rw [hfind] at hm
          have hxmem : x ∈ csp1.vars := List.mem_of_find?_eq_some hfind
          have hxnone : (a.lookup x).isNone = true := by
            simpa using List.find?_some hfind
          have hx : x ∉ a.map Prod.fst := by
            rw [← lookup_eq_none_iff]
            exact Option.isNone_iff_eq_none.mp hxnone
          have hsolve : ∀ (csp2 : CSP) (b : Assignment) (r0 : Assignment),
              csp2.vars = csp1.vars → csp2.constraints = csp1.constraints →
              (b.map Prod.fst).Nodup → (∀ k ∈ b.map Prod.fst, k ∈ csp1.vars) →
              b.length ≤ csp1.vars.length →
              recursiveBacktracking f csp2 b opts = some (some r0) →
              (b.length = csp1.vars.length ∧ r0 = b) ∨
                ((r0.map Prod.fst).Nodup ∧ (∀ k ∈ r0.map Prod.fst, k ∈ csp1.vars) ∧
                 r0.length = csp1.vars.length ∧
                 validateConstraints r0 csp1.constraints false = true) := by
            intro csp2 b r0 hv2 hc2 hbnd hbsub hble hrun
            have := ih csp2 b opts r0 hbnd
              (by intro k hk; rw [hv2]; exact hbsub k hk)
              (by rw [hv2]; exact hble) hrun
            rcases this with hL | hR
            · exact Or.inl ⟨by rw [← hv2]; exact hL.1, hL.2⟩
            · refine Or.inr ⟨hR.1, ?_, ?_, ?_⟩
              · intro k hk; rw [← hv2]; exact hR.2.1 k hk
              · rw [← hv2]; exact hR.2.2.1
              · rw [← hc2]; exact hR.2.2.2
          have hres := tryValues_result_inv _ _ csp1 a opts x hsolve hnd
            (by intro k hk; rw [hv]; exact hsub k hk)
            (by rw [hv]; exact hlt) hxmem hx _ r hm
          refine ⟨hres.1, ?_, ?_, ?_⟩
          · intro k hk; rw [← hv]; exact hres.2.1 k hk
          · rw [← hv]; exact hres.2.2.1
          · rw [← hc]; exact hres.2.2.2
      by_cases hac : opts.arcConsistency = true
      · rw [if_pos hac] at h
        cases hrun : arcConsistencyFuel f csp with
        | none => rw [hrun] at h; exact absurd h (by simp)
        | some q =>
          obtain ⟨b, csp1⟩ := q
          rw [hrun] at h
          cases b with
          | true => exact absurd h (by simp)
          | false =>
            dsimp only at h
            obtain ⟨hv1, hc1, -⟩ := arcConsistencyFuel_preserves f csp false csp1 hrun
            exact main csp1 hv1 hc1 h
      · rw [if_neg hac] at h
        dsimp only at h
        exact main csp rfl rfl h

/-- C1 (amended): for every CSP whose variables are duplicate-free, every
initial assignment that assigns fewer entries than there are variables, with
distinct keys all drawn from the CSP's variables, and every option
combination: if `solve` returns a non-absent result `A`, then `A` assigns a
value to every variable and `validateConstraints(A, C.constraints, false)`
is true. -/
theorem solve_sound_of_incomplete_start (fuel : Nat) (csp : CSP) (a : Assignment)
    (opts : SolverOptions) (r : Assignment)
    (hvars : csp.vars.Nodup)
    (hnd : (a.map Prod.fst).Nodup)
    (hsub : ∀ k ∈ a.map Prod.fst, k ∈ csp.vars)
    (hlt : a.length < csp.vars.length)
    (hrun : recursiveBacktracking fuel csp a opts = some (some r)) :
    (∀ v ∈ csp.vars, (r.lookup v).isSome = true) ∧
    validateConstraints r csp.constraints false = true := by
  rcases solve_result_inv fuel csp a opts r hnd hsub (le_of_lt hlt) hrun with hL | hR
  · exact absurd hL.1 (Nat.ne_of_lt hlt)
  · obtain ⟨hrnd, hrsub, hrlen, hrval⟩ := hR
    refine ⟨?_, hrval⟩
    intro v hv
    rw [lookup_isSome_iff]
    have hsubF : (r.map Prod.fst).toFinset ⊆ csp.vars.toFinset := by
      intro k hk
      rw [List.mem_toFinset] at hk ⊢
      exact hrsub k hk
    have hcard : csp.vars.toFinset.card ≤ (r.map Prod.fst).toFinset.card := by
      rw [List.toFinset_card_of_nodup hrnd, List.toFinset_card_of_nodup hvars,
        List.length_map]
      omega
    have heq := Finset.eq_of_subset_of_card_le hsubF hcard
    have : v ∈ (r.map Prod.fst).toFinset := by
      rw [heq, List.mem_toFinset]
      exact hv
    rwa [List.mem_toFinset] at this

/-- Witness for C1 (amended): a concrete incomplete (empty) start on a
two-variable distinctness problem. -/
theorem solve_sound_of_incomplete_start_witness :
    recursiveBacktracking 3
        (⟨["x", "y"], [("x", [Val.vnat 1, Val.vnat 2]), ("y", [Val.vnat 1, Val.vnat 2])],
          [Constraint.mustBeDistinct ["x", "y"]], none, none⟩ : CSP)
        [] noOptions = some (some [("x", Val.vnat 1), ("y", Val.vnat 2)]) ∧
    (([("x", Val.vnat 1), ("y", Val.vnat 2)] : Assignment).lookup "y").isSome = true ∧
    validateConstraints [("x", Val.vnat 1), ("y", Val.vnat 2)]
        [Constraint.mustBeDistinct ["x", "y"]] false = true := by
  have h := solve_sound_of_incomplete_start 3
    (⟨["x", "y"], [("x", [Val.vnat 1, Val.vnat 2]), ("y", [Val.vnat 1, Val.vnat 2])],
      [Constraint.mustBeDistinct ["x", "y"]], none, none⟩ : CSP)
    [] noOptions [("x", Val.vnat 1), ("y", Val.vnat 2)]
    (by decide) (by decide) (by simp) (by decide) (by decide)
  exact ⟨by decide, h.1 "y" (by decide), h.2⟩

end CSPSolver

namespace CSPSolver

/-! ## Claim C9: the caller's CSP instance is never mutated -/

/-- C9: in the state-threading view of the search, a completed call returns
the caller's CSP instance exactly as it was received: AC-3 and
forward-checking mutations are applied only to the deep copies bound inside
the call (`csp = _.cloneDeep(csp)` and `newCsp = _.cloneDeep(csp)`), never
to the caller's object. -/
theorem solve_preserves_caller_csp (fuel : Nat) (csp : CSP) (a : Assignment)
    (opts : SolverOptions) (p : Option Assignment × CSP)
    (h : recursiveBacktrackingSt fuel csp a opts = some p) :
    p.2 = csp := by
  cases fuel with
  | zero => exact absurd h (by simp [recursiveBacktrackingSt])
  | succ f =>
    simp only [recursiveBacktrackingSt] at h
    by_cases hbase : a.length = csp.vars.length
    · rw [if_pos hbase] at h
      exact (congrArg Prod.snd (Option.some.inj h)).symm
    · rw [if_neg hbase] at h
      cases hm : (if opts.arcConsistency = true then arcConsistencyFuel f csp
          else some (false, csp)) with
      | none => rw [hm] at h; exact absurd h (by simp)
      | some q =>
        rw [hm] at h
        obtain ⟨b, csp1⟩ := q
        cases b with
        | true =>
          dsimp only at h
          exact (congrArg Prod.snd (Option.some.inj h)).symm
        | false =>
          dsimp only at h
          cases hf : csp1.vars.find? (fun v => (a.lookup v).isNone) with
          | none => rw [hf] at h; exact absurd h (by simp)
          | some x =>
            rw [hf] at h
            dsimp only at h
            cases ht : tryValuesSt (fun c b => recursiveBacktrackingSt f c b opts)
                (forwardCheckingFuel f) csp1 a opts x (domLookup csp1.domains x) with
            | none => rw [ht] at h; exact absurd h (by simp)
            | some r =>
              rw [ht] at h
              dsimp only at h
              exact (congrArg Prod.snd (Option.some.inj h)).symm

/-- Witness for C9: a completed concrete run hands back the caller's
instance unchanged. -/
theorem solve_preserves_caller_csp_witness :
    recursiveBacktrackingSt 2 (⟨["u"], [("u", [Val.vnat 1])], [], none, none⟩ : CSP)
        [] noOptions =
      some (some [("u", Val.vnat 1)], (⟨["u"], [("u", [Val.vnat 1])], [], none, none⟩ : CSP)) ∧
    (some [("u", Val.vnat 1)], (⟨["u"], [("u", [Val.vnat 1])], [], none, none⟩ : CSP)).2 =
      (⟨["u"], [("u", [Val.vnat 1])], [], none, none⟩ : CSP) :=
  ⟨by decide, solve_preserves_caller_csp 2 _ [] noOptions _ (by decide)⟩

end CSPSolver

namespace CSPSolver

/-! ## Claim C6 (amended): AC-3 idempotence for symmetric arc lists -/

theorem hasSupport_congr (cs : List Constraint) (d1 d2 : Domains) (x : String) (v : Val)
    (y : String) (hy : domLookup d1 y = domLookup d2 y) :
    hasSupport cs d1 x v y = hasSupport cs d2 x v y := by
  unfold hasSupport
  rw [hy]

theorem removeInconsistentValuesGo_flag_true (cs : List Constraint) (x y : String) :
    ∀ (L : List Val) (doms : Domains),
      (removeInconsistentValuesGo cs x y L doms true).2 = true := by
  intro L
  induction L with
  | nil => intro doms; rfl
  | cons vx rest ih =>
    intro doms
    simp only [removeInconsistentValuesGo]
    by_cases hs : (domLookup doms y).any
        (fun vy => validateConstraints (mkPairAssignment x vx y vy) cs true) = true
    · rw [if_pos hs]; exact ih doms
    · rw [if_neg hs]; exact ih _

theorem removeInconsistentValuesGo_other (cs : List Constraint) (x y : String) :
    ∀ (L : List Val) (doms : Domains) (flag : Bool) (w : String), w ≠ x →
      domLookup ((removeInconsistentValuesGo cs x y L doms flag).1) w = domLookup doms w := by
  intro L
  induction L with
  | nil => intro doms flag w _; rfl
  | cons vx rest ih =>
    intro doms flag w hw
    simp only [removeInconsistentValuesGo]
    by_cases hs : (domLookup doms y).any
        (fun vy => validateConstraints (mkPairAssignment x vx y vy) cs true) = true
    · rw [if_pos hs]; exact ih doms flag w hw
    · rw [if_neg hs]
      rw [ih _ true w hw, domLookup_setDom, if_neg hw]

theorem removeInconsistentValuesGo_subset (cs : List Constraint) (x y : String) :
    ∀ (L : List Val) (doms : Domains) (flag : Bool),
      domLookup ((removeInconsistentValuesGo cs x y L doms flag).1) x ⊆ domLookup doms x := by
  intro L
  induction L with
  | nil => intro doms flag z hz; exact hz
  | cons vx rest ih =>
    intro doms flag
    simp only [removeInconsistentValuesGo]
    by_cases hs : (domLookup doms y).any
        (fun vy => validateConstraints (mkPairAssignment x vx y vy) cs true) = true
    · rw [if_pos hs]; exact ih doms flag
    · rw [if_neg hs]
      intro z hz
      have := ih (setDom doms x ((domLookup doms x).filter (fun w => decide (¬ w = vx)))) true hz
      rw [domLookup_setDom, if_pos rfl] at this
      exact List.mem_of_mem_filter this

theorem removeInconsistentValuesGo_all_supported (cs : List Constraint) (x y : String) :
    ∀ (L : List Val) (doms : Domains) (flag : Bool),
      (∀ v ∈ L, hasSupport cs doms x v y = true) →
      removeInconsistentValuesGo cs x y L doms flag = (doms, flag) := by
  intro L
  induction L with
  | nil => intro doms flag _; rfl
  | cons vx rest ih =>
    intro doms flag hall
    simp only [removeInconsistentValuesGo]
    have hs := hall vx (List.mem_cons_self vx rest)
    unfold hasSupport at hs
    rw [if_pos hs]
    exact ih doms flag (fun v hv => hall v (List.mem_cons_of_mem vx hv))

theorem removeInconsistentValuesGo_false_inv (cs : List Constraint) (x y : String) :
    ∀ (L : List Val) (doms doms' : Domains),
      removeInconsistentValuesGo cs x y L doms false = (doms', false) →
      doms' = doms ∧ ∀ v ∈ L, hasSupport cs doms x v y = true := by
  intro L
  induction L with
  | nil =>
    intro doms doms' h
    refine ⟨?_, by simp⟩
    have := congrArg Prod.fst h
    exact this.symm
  | cons vx rest ih =>
    intro doms doms' h
    simp only [removeInconsistentValuesGo] at h
    by_cases hs : (domLookup doms y).any
        (fun vy => validateConstraints (mkPairAssignment x vx y vy) cs true) = true
    · rw [if_pos hs] at h
      obtain ⟨hd, hrest⟩ := ih doms doms' h
      refine ⟨hd, ?_⟩
      intro v hv
      rcases List.mem_cons.mp hv with hv | hv
      · rw [hv]; exact hs
      · exact hrest v hv
    · rw [if_neg hs] at h
      have := congrArg Prod.snd h
      rw [removeInconsistentValuesGo_flag_true cs x y rest _] at this
      exact absurd this.symm (by simp)

theorem removeInconsistentValuesGo_post (cs : List Constraint) (x y : String) (hxy : x ≠ y) :
    ∀ (L : List Val) (doms : Domains) (flag : Bool),
      (∀ v ∈ domLookup doms x, v ∈ L ∨ hasSupport cs doms x v y = true) →
      ∀ v ∈ domLookup ((removeInconsistentValuesGo cs x y L doms flag).1) x,
        hasSupport cs ((removeInconsistentValuesGo cs x y L doms flag).1) x v y = true := by
  intro L
  induction L with
  | nil =>
    intro doms flag hinv v hv
    rcases hinv v hv with hfalse | hsup
    · exact absurd hfalse (List.not_mem_nil v)
    · exact hsup
  | cons vx rest ih =>
    intro doms flag hinv
    simp only [removeInconsistentValuesGo]
    by_cases hs : (domLookup doms y).any
        (fun vy => validateConstraints (mkPairAssignment x vx y vy) cs true) = true
    · rw [if_pos hs]
      apply ih doms flag
      intro v hv
      rcases hinv v hv with hmem | hsup
      · rcases List.mem_cons.mp hmem with hvx | hr
        · right; rw [hvx]; exact hs
        · left; exact hr
      · right; exact hsup
    · rw [if_neg hs]
      apply ih _ true
      intro v hv
      rw [domLookup_setDom, if_pos rfl] at hv
      have hvdom : v ∈ domLookup doms x := List.mem_of_mem_filter hv
      have hvne : v ≠ vx := by
        have := (List.mem_filter.mp hv).2
        simpa using this
      have hy' : domLookup (setDom doms x
          ((domLookup doms x).filter (fun w => decide (¬ w = vx)))) y = domLookup doms y := by
        rw [domLookup_setDom, if_neg (Ne.symm hxy)]
      rcases hinv v hvdom with hmem | hsup
      · rcases List.mem_cons.mp hmem with hvx | hr
        · exact absurd hvx hvne
        · left; exact hr
      · right
        rw [hasSupport_congr cs _ doms x v y hy']
        exact hsup

theorem removeInconsistentValues_post (cs : List Constraint) (doms : Domains) (x y : String)
    (hxy : x ≠ y) :
    arcConsistent cs ((removeInconsistentValues cs doms x y).1) x y := by
  intro v hv
  exact removeInconsistentValuesGo_post cs x y hxy (domLookup doms x) doms false
    (fun v hv => Or.inl hv) v hv

theorem removeInconsistentValues_other (cs : List Constraint) (doms : Domains) (x y w : String)
    (hw : w ≠ x) :
    domLookup ((removeInconsistentValues cs doms x y).1) w = domLookup doms w :=
  removeInconsistentValuesGo_other cs x y (domLookup doms x) doms false w hw

theorem removeInconsistentValues_subset (cs : List Constraint) (doms : Domains) (x y : String) :
    domLookup ((removeInconsistentValues cs doms x y).1) x ⊆ domLookup doms x :=
  removeInconsistentValuesGo_subset cs x y (domLookup doms x) doms false

theorem removeInconsistentValues_no_removal (cs : List Constraint) (doms : Domains)
    (x y : String) (h : (removeInconsistentValues cs doms x y).2 = false) :
    (removeInconsistentValues cs doms x y).1 = doms ∧ arcConsistent cs doms x y := by
  have hpair : removeInconsistentValuesGo cs x y (domLookup doms x) doms false =
      ((removeInconsistentValues cs doms x y).1, false) := by
    conv_rhs => rw [← h]
    rfl
  obtain ⟨hdd, hsup⟩ := removeInconsistentValuesGo_false_inv cs x y (domLookup doms x) doms
    (removeInconsistentValues cs doms x y).1 hpair
  exact ⟨hdd, hsup⟩

theorem removeInconsistentValues_consistent (cs : List Constraint) (doms : Domains)
    (x y : String) (h : arcConsistent cs doms x y) :
    removeInconsistentValues cs doms x y = (doms, false) := by
  unfold removeInconsistentValues
  exact removeInconsistentValuesGo_all_supported cs x y (domLookup doms x) doms false h

theorem arcConsistent_mono (cs : List Constraint) (d d' : Domains) (a c : String)
    (hc : domLookup d' c = domLookup d c) (ha : domLookup d' a ⊆ domLookup d a)
    (h : arcConsistent cs d a c) : arcConsistent cs d' a c := by
  intro v hv
  rw [hasSupport_congr cs d' d a v c hc]
  exact h v (ha hv)

end CSPSolver

namespace CSPSolver

theorem mem_neighboursOf_addNeighbour (m : List (String × List String)) (a b x c : String) :
    c ∈ neighboursOf (addNeighbour m a b) x ↔
      c ∈ neighboursOf m x ∨ (x = a ∧ c = b) := by
  induction m with
  | nil =>
    by_cases hx : x = a
    · subst hx
      simp [addNeighbour, neighboursOf, List.lookup]
    · simp [addNeighbour, neighboursOf, List.lookup, beq_false_of_ne hx, hx]
  | cons p rest ih =>
    obtain ⟨k, l⟩ := p
    by_cases hk : k = a
    · subst hk
      by_cases hx : x = k
      · subst hx
        simp only [addNeighbour, if_pos rfl, neighboursOf, List.lookup, beq_self_eq_true]
        simp
      · simp only [addNeighbour, if_pos rfl, neighboursOf, List.lookup, beq_false_of_ne hx]
        simp [hx]
    · by_cases hx : x = k
      · subst hx
        simp only [addNeighbour, if_neg hk, neighboursOf, List.lookup, beq_self_eq_true]
        simp [hk]
      · simp only [addNeighbour, if_neg hk, neighboursOf, List.lookup, beq_false_of_ne hx]
        exact ih

theorem mem_neighboursOf_foldl (arcs : List (String × String)) :
    ∀ (m : List (String × List String)) (x c : String),
      c ∈ neighboursOf (arcs.foldl (fun m p => addNeighbour m p.1 p.2) m) x ↔
        c ∈ neighboursOf m x ∨ (x, c) ∈ arcs := by
  induction arcs with
  | nil => intro m x c; simp
  | cons p rest ih =>
    intro m x c
    obtain ⟨a, b⟩ := p
    simp only [List.foldl_cons]
    rw [ih (addNeighbour m a b) x c, mem_neighboursOf_addNeighbour]
    constructor
    · rintro ((hm | ⟨hxa, hcb⟩) | hr)
      · exact Or.inl hm
      · exact Or.inr (by rw [hxa, hcb]; exact List.mem_cons_self _ _)
      · exact Or.inr (List.mem_cons_of_mem _ hr)
    · rintro (hm | hmem)
      · exact Or.inl (Or.inl hm)
      · rcases List.mem_cons.mp hmem with hp | hr
        · have h1 : x = a := congrArg Prod.fst hp
          have h2 : c = b := congrArg Prod.snd hp
          exact Or.inl (Or.inr ⟨h1, h2⟩)
        · exact Or.inr hr

theorem mem_neighboursOf_buildNeighbours (arcs : List (String × String)) (x c : String) :
    c ∈ neighboursOf (buildNeighbours arcs) x ↔ (x, c) ∈ arcs := by
  unfold buildNeighbours
  rw [mem_neighboursOf_foldl arcs [] x c]
  simp [neighboursOf, List.lookup]

theorem ac3Loop_fixpoint (cs : List Constraint) (nbrs : List (String × List String))
    (arcs : List (String × String))
    (hsym : ∀ p ∈ arcs, (p.2, p.1) ∈ arcs)
    (hirr : ∀ p ∈ arcs, p.1 ≠ p.2)
    (hn : ∀ (x b : String), b ∈ neighboursOf nbrs x ↔ (x, b) ∈ arcs) :
    ∀ (fuel : Nat) (queue : List (String × String)) (doms doms' : Domains),
      (∀ p ∈ queue, p ∈ arcs) →
      (∀ p ∈ arcs, p ∈ queue ∨ arcConsistent cs doms p.1 p.2) →
      ac3Loop cs nbrs fuel queue doms = some (false, doms') →
      ∀ p ∈ arcs, arcConsistent cs doms' p.1 p.2 := by
  intro fuel
  induction fuel with
  | zero => intro queue doms doms' _ _ h; exact absurd h (by simp [ac3Loop])
  | succ f ih =>
    intro queue doms doms' hq hinv h
    cases queue with
    | nil =>
      simp only [ac3Loop, Option.some.injEq, Prod.mk.injEq] at h
      rw [← h.2]
      intro p hp
      rcases hinv p hp with hmem | hcons
      · exact absurd hmem (List.not_mem_nil p)
      · exact hcons
    | cons hd rest =>
      obtain ⟨x, y⟩ := hd
      have hxyarcs : (x, y) ∈ arcs := hq (x, y) (List.mem_cons_self _ _)
      have hxy : x ≠ y := hirr (x, y) hxyarcs
      simp only [ac3Loop] at h
      by_cases hrm : (removeInconsistentValues cs doms x y).2 = true
      · rw [if_pos hrm] at h
        by_cases hemp : (domLookup ((removeInconsistentValues cs doms x y).1) x).isEmpty = true
        · rw [if_pos hemp] at h
          exact absurd (congrArg (fun o => o.map Prod.fst) h) (by simp)
        · rw [if_neg hemp] at h
          apply ih _ _ doms' ?_ ?_ h
          · intro p hp
            rcases List.mem_append.mp hp with hp | hp
            · exact hq p (List.mem_cons_of_mem _ hp)
            · obtain ⟨b, hb, hpb⟩ := List.mem_map.mp hp
              rw [← hpb]
              exact hsym (x, b) ((hn x b).mp hb)
          · intro p hp
            obtain ⟨a, c⟩ := p
            rcases hinv (a, c) hp with hmem | hcons
            · rcases List.mem_cons.mp hmem with hhd | hr
              · have hax : a = x := congrArg Prod.fst hhd
                have hcy : c = y := congrArg Prod.snd hhd
                subst hax; subst hcy
                exact Or.inr (removeInconsistentValues_post cs doms a c hxy)
              · exact Or.inl (List.mem_append.mpr (Or.inl hr))
            · by_cases hcx : c = x
              · subst hcx
                refine Or.inl (List.mem_append.mpr (Or.inr ?_))
                have hxa : (c, a) ∈ arcs := hsym (a, c) hp
                have : a ∈ neighboursOf nbrs c := (hn c a).mpr hxa
                exact List.mem_map.mpr ⟨a, this, rfl⟩
              · refine Or.inr (arcConsistent_mono cs doms _ a c ?_ ?_ hcons)
                · exact removeInconsistentValues_other cs doms x y c hcx
                · by_cases hax : a = x
                  · subst hax
                    exact removeInconsistentValues_subset cs doms a y
                  · rw [removeInconsistentValues_other cs doms x y a hax]
                    exact fun z hz => hz
      · rw [if_neg hrm] at h
        obtain ⟨hdd, hcxy⟩ := removeInconsistentValues_no_removal cs doms x y
          (Bool.not_eq_true _ |>.mp hrm)
        rw [hdd] at h
        apply ih rest doms doms' ?_ ?_ h
        · intro p hp; exact hq p (List.mem_cons_of_mem _ hp)
        · intro p hp
          obtain ⟨a, c⟩ := p
          rcases hinv (a, c) hp with hmem | hcons
          · rcases List.mem_cons.mp hmem with hhd | hr
            · have hax : a = x := congrArg Prod.fst hhd
              have hcy : c = y := congrArg Prod.snd hhd
              subst hax; subst hcy
              exact Or.inr hcxy
            · exact Or.inl hr
          · exact Or.inr hcons

theorem ac3Loop_noop (cs : List Constraint) (nbrs : List (String × List String))
    (arcs : List (String × String)) (doms : Domains)
    (hall : ∀ p ∈ arcs, arcConsistent cs doms p.1 p.2) :
    ∀ (queue : List (String × String)) (fuel : Nat),
      (∀ p ∈ queue, p ∈ arcs) → queue.length < fuel →
      ac3Loop cs nbrs fuel queue doms = some (false, doms) := by
  intro queue
  induction queue with
  | nil =>
    intro fuel _ hfuel
    cases fuel with
    | zero => exact absurd hfuel (by omega)
    | succ g => rfl
  | cons hd rest ih =>
    intro fuel hq hfuel
    obtain ⟨x, y⟩ := hd
    cases fuel with
    | zero => exact absurd hfuel (by omega)
    | succ g =>
      have hcons := hall (x, y) (hq (x, y) (List.mem_cons_self _ _))
      have hriv := removeInconsistentValues_consistent cs doms x y hcons
      simp only [ac3Loop, hriv]
      exact ih g (fun p hp => hq p (List.mem_cons_of_mem _ hp)) (by simp at hfuel; omega)

end CSPSolver

namespace CSPSolver

theorem computeNeighbours_of_some (csp : CSP) (nb : List (String × List String))
    (h : csp.neighbours = some nb) : computeNeighbours csp = csp := by
  unfold computeNeighbours
  cases harcs : csp.arcs <;> rw [h]

/-- C6 (amended): for every CSP whose arc list is symmetric and irreflexive
and whose neighbour cache is not pre-populated, if AC-3 runs to completion
once without signalling wipeout, then a second run on the resulting CSP
removes no value from any domain (it returns the CSP unchanged) and again
returns false. -/
theorem arcConsistency_idempotent_symmetric (fuel fuel' : Nat) (csp csp' : CSP)
    (arcs : List (String × String))
    (harcs : csp.arcs = some arcs)
    (hsym : ∀ p ∈ arcs, (p.2, p.1) ∈ arcs)
    (hirr : ∀ p ∈ arcs, p.1 ≠ p.2)
    (hnb : csp.neighbours = none)
    (hrun : arcConsistencyFuel fuel csp = some (false, csp'))
    (hfuel : arcs.length < fuel') :
    arcConsistencyFuel fuel' csp' = some (false, csp') := by
  have hcn : computeNeighbours csp = { csp with neighbours := some (buildNeighbours arcs) } := by
    unfold computeNeighbours
    rw [harcs, hnb]
  simp only [arcConsistencyFuel, harcs, hcn, Option.getD_some] at hrun
  cases hl : ac3Loop csp.constraints (buildNeighbours arcs) fuel arcs csp.domains with
  | none => rw [hl] at hrun; exact absurd hrun (by simp)
  | some q =>
    obtain ⟨b, doms'⟩ := q
    rw [hl] at hrun
    dsimp only at hrun
    have hpair := Option.some.inj hrun
    have hb : b = false := congrArg Prod.fst hpair
    have hcsp' : (⟨csp.vars, doms', csp.constraints, some arcs,
        some (buildNeighbours arcs)⟩ : CSP) = csp' := congrArg Prod.snd hpair
    subst hb
    have hcons : ∀ p ∈ arcs, arcConsistent csp.constraints doms' p.1 p.2 :=
      ac3Loop_fixpoint csp.constraints (buildNeighbours arcs) arcs hsym hirr
        (fun x b => mem_neighboursOf_buildNeighbours arcs x b) fuel arcs csp.domains doms'
        (fun p hp => hp) (fun p hp => Or.inl hp) hl
    rw [← hcsp']
    have hcn2 : computeNeighbours (⟨csp.vars, doms', csp.constraints, some arcs,
        some (buildNeighbours arcs)⟩ : CSP) = ⟨csp.vars, doms', csp.constraints, some arcs,
        some (buildNeighbours arcs)⟩ := computeNeighbours_of_some _ (buildNeighbours arcs) rfl
    simp only [arcConsistencyFuel, hcn2, Option.getD_some]
    rw [ac3Loop_noop csp.constraints (buildNeighbours arcs) arcs doms' hcons arcs fuel'
      (fun p hp => hp) hfuel]

/-- Witness for C6 (amended) on the Lion-Unicorn problem (its arc list is
built with `copyAndReverse`, hence symmetric): a second AC-3 run leaves the
pruned problem untouched. -/
theorem arcConsistency_idempotent_symmetric_witness :
    arcConsistencyFuel 60 LionUnicornPruned = some (false, LionUnicornPruned) :=
  arcConsistency_idempotent_symmetric 60 60 LionUnicorn LionUnicornPruned
    [("lion", "today"), ("unicorn", "today"), ("today", "lion"), ("today", "unicorn")]
    rfl (by decide) (by decide) rfl (by decide) (by decide)

end CSPSolver
